import Mathlib

/-!
# Verification of `snapVertsToClosest.py`

A shallow embedding of the two core components of the repository:

* `get_magnitude` — Euclidean distance between two 3D points (source lines 11–25).
* `snap_to_closest_vertex` — the closest-vertex snapping loop (source lines 63–112).

Modelling decisions:

* World-space positions flow through the host application as coordinate lists
  (`cmds.pointPosition` returns a list of three floats, and the code indexes
  positions with `[0]`, `[1]`, `[2]`).  Positions are therefore embedded as
  `List α`.  The Python `IndexError` that an out-of-bounds index would raise is
  embedded by making the fallible steps return `Option`: a `none` result is an
  aborted run.
* The host-application queries (`nearestPointOnMesh`, component conversion,
  `filterExpand`, `pointPosition`, the progress bar) are external collaborators;
  they are embedded as oracle fields of `SnapEnv`.  The candidate set obtained
  for a queried position is a pure function of that position because the
  reference mesh is never mutated by the operation.
* Floating-point scalars are embedded as an arbitrary `LinearOrderedRing` so
  that the control flow (which only compares distances) can be analysed
  exactly and evaluated on concrete inputs; `get_magnitude` itself, whose
  definition genuinely takes a square root, is embedded over `ℝ`.
* The observable side effects of one run (progress bar begin/end, plugin load,
  query-node creation and deletion, cancellation polls, vertex moves, progress
  steps) are recorded in an event trace, in program order.
-/

namespace SnapVerts

/-- Source line 7: `TOLERANCE = 10`, the default snapping tolerance. -/
def TOLERANCE : ℕ := 10

/-- Source line 8: `INITIALISATION_DISTANCE = 2 ** 32 - 1`, the sentinel used
to initialise `closest_distance` at the start of each vertex's candidate scan. -/
def INITIALISATION_DISTANCE : ℕ := 2 ^ 32 - 1

/-- Source lines 11–25: `get_magnitude(point_a, point_b)` computes the
Euclidean norm of the difference of two 3D points (given as 3-tuples). -/
noncomputable def get_magnitude (point_a point_b : ℝ × ℝ × ℝ) : ℝ :=
  let dx := point_a.1 - point_b.1
  let dy := point_a.2.1 - point_b.2.1
  let dz := point_a.2.2 - point_b.2.2
  Real.sqrt (dx * dx + dy * dy + dz * dz)

/-- The per-vertex scan state of `snap_to_closest_vertex` (source lines 84–106):
the running `closest_distance` and `closest_position`, the current world
position of the vertex being processed (updated by `cmds.move`), and the list
of world positions passed to `cmds.move`, in order (the move trace). -/
structure ScanState (α : Type) where
  closest_distance : α
  closest_position : List α
  vertex_pos : List α
  move_trace : List (List α)

variable {α : Type} [LinearOrderedRing α]

/-- Source lines 84, 86, 94: at the start of a vertex's iteration,
`closest_distance` is the sentinel, `closest_position` is the empty list, and
the vertex's world position has just been read. -/
def initState (vertex_position : List α) : ScanState α :=
  { closest_distance := (INITIALISATION_DISTANCE : α)
    closest_position := []
    vertex_pos := vertex_position
    move_trace := [] }

/-- Source lines 99–106: the body of the candidate loop for one candidate
position `c`.  `d c` is `get_magnitude(vertex_position, c)` (the distance is
always taken from the position read at line 86, never from the moved
position).  If the distance improves on the running minimum, the running
minimum and `closest_position` are updated; then, whenever the running minimum
is under tolerance, the vertex is moved to
`closest_position[0], closest_position[1], closest_position[2]` — indexing
that raises `IndexError` (embedded as `none`) when `closest_position` has
fewer than three components. -/
def candidate_step (d : List α → α) (tolerance : α) (s : ScanState α)
    (c : List α) : Option (ScanState α) :=
  let distance := d c
  let s1 :=
    if distance < s.closest_distance then
      { s with closest_distance := distance, closest_position := c }
    else s
  if s1.closest_distance < tolerance then
    match s1.closest_position with
    | x :: y :: z :: _ =>
      some { s1 with vertex_pos := [x, y, z],
                     move_trace := s1.move_trace ++ [[x, y, z]] }
    | _ => none
  else
    some s1

/-- Source lines 95–106: the candidate loop — `candidate_step` folded over the
candidate positions in the order returned by the topology query. -/
def candidate_scan (d : List α → α) (tolerance : α) :
    ScanState α → List (List α) → Option (ScanState α)
  | s, [] => some s
  | s, c :: cs =>
    match candidate_step d tolerance s c with
    | none => none
    | some s1 => candidate_scan d tolerance s1 cs

/-- The observable side effects of one run of `snap_to_closest_vertex`, in
program order: progress-bar begin (line 73), plugin load (line 76), creation
of the `nearestPointOnMesh` node (line 78), cancellation polls (line 81),
vertex moves (line 106), progress steps (line 108), progress-bar end
(line 110) and deletion of the query node (line 112). -/
inductive Event (α ι : Type) where
  | beginProgress (maxValue : ℕ)
  | loadPlugin
  | createNode
  | poll (result : Bool)
  | move (vertex : ι) (target : List α)
  | step
  | endProgress
  | deleteNode

/-- The external collaborators of `snap_to_closest_vertex`, embedded as
oracles: the distance function (`get_magnitude`, kept abstract over the
scalar type), the candidate query (the composite of `nearestFaceIndex`,
`polyListComponentConversion`, `filterExpand` and `pointPosition`, a pure
function of the queried position since the reference mesh is static), the
successive results of the cancellation poll, and the initial world position of
every vertex. -/
structure SnapEnv (α ι : Type) where
  dist : List α → List α → α
  candidates : List α → List (List α)
  cancelled : ℕ → Bool
  pos0 : ι → List α

/-- Source lines 80–108: the outer snapping loop.  For each vertex in order:
poll the cancellation flag (breaking out of the loop if it is set), read the
vertex's current world position, query the candidate set for that position,
run the candidate scan, commit the vertex's possibly-moved position, and step
the progress bar.  The natural-number argument counts the polls issued so
far.  Returns the final position map together with the event trace of the
loop, or `none` if a candidate scan aborted. -/
def snap_loop {ι : Type} [DecidableEq ι] (env : SnapEnv α ι) (tolerance : α) :
    (ι → List α) → ℕ → List ι → Option ((ι → List α) × List (Event α ι))
  | pos, _, [] => some (pos, [])
  | pos, k, v :: vs =>
    if env.cancelled k then
      some (pos, [Event.poll true])
    else
      match candidate_scan (env.dist (pos v)) tolerance (initState (pos v))
          (env.candidates (pos v)) with
      | none => none
      | some s =>
        match snap_loop env tolerance (Function.update pos v s.vertex_pos)
            (k + 1) vs with
        | none => none
        | some (pos1, tr) =>
          some (pos1, [Event.poll false] ++ s.move_trace.map (Event.move v)
                        ++ [Event.step] ++ tr)

/-- Source lines 63–112: `snap_to_closest_vertex(referenceObject, vertices,
tolerance)`.  Begin the progress bar, load the `nearestPointOnMesh` plugin,
create the query node, run the snapping loop, end the progress bar and delete
the query node.  Returns the final position map and the full event trace, or
`none` if the run aborted with an `IndexError`. -/
def snap_to_closest_vertex {ι : Type} [DecidableEq ι] (env : SnapEnv α ι)
    (vertices : List ι) (tolerance : α) :
    Option ((ι → List α) × List (Event α ι)) :=
  match snap_loop env tolerance env.pos0 0 vertices with
  | none => none
  | some (pos, tr) =>
    some (pos, [Event.beginProgress vertices.length, Event.loadPlugin,
                Event.createNode] ++ tr ++ [Event.endProgress, Event.deleteNode])

/-! ## Pure mirrors of the scan used to state its characterisation

`foldArgmin` is the running-minimum half of the candidate loop (source lines
101–103) with the side-effecting move stripped out; `move_positions` is the
list of positions the move statement (source lines 105–106) fires at;
`lastMove` applies a list of moves to a position.  These are the vocabulary in
which the behaviour of `candidate_scan` is characterised. -/

/-- The running-minimum recurrence of the candidate loop (source lines
101–103): fold the strict-improvement update of
`(closest_distance, closest_position)` over the candidate list. -/
def foldArgmin (d : List α → α) : α × List α → List (List α) → α × List α
  | st, [] => st
  | (cd, cp), c :: cs =>
    if d c < cd then foldArgmin d (d c, c) cs else foldArgmin d (cd, cp) cs

/-- The sequence of positions the move statement (source lines 105–106) fires
at during a candidate scan started in running state `(cd, cp)`: one move per
candidate step at which the running minimum (after the possible update) is
under tolerance, targeting the running `closest_position` of that step. -/
def move_positions (d : List α → α) (tolerance : α) :
    α × List α → List (List α) → List (List α)
  | _, [] => []
  | (cd, cp), c :: cs =>
    let cd1 := if d c < cd then d c else cd
    let cp1 := if d c < cd then c else cp
    (if cd1 < tolerance then [cp1] else [])
      ++ move_positions d tolerance (cd1, cp1) cs

/-- The position of a vertex after a sequence of moves: the last move target,
or the starting position when no move fired. -/
def lastMove (p : List α) : List (List α) → List α
  | [] => p
  | q :: qs => lastMove q qs

/-- The number of times a position value actually changes along a starting
position followed by a sequence of move targets. -/
def numChanges (p : List α) : List (List α) → ℕ
  | [] => 0
  | q :: qs => (if q = p then 0 else 1) + numChanges q qs

/-- Modelled from the spec's comparison variant (§4.2 design note): a scan
that finds the minimum distance over all candidates first (ties broken by the
first candidate achieving it, as the strict-improvement update does), and then
performs a single move at the end if that minimum distance is under tolerance;
otherwise the vertex keeps its position `p`. -/
def snap_vertex_end_move (d : List α → α) (tolerance : α) (p : List α) :
    List (List α) → List α
  | [] => p
  | c :: cs =>
    let r := foldArgmin d (d c, c) cs
    if r.1 < tolerance then r.2 else p

/-- The invariant a reachable scan state satisfies: either no candidate has
improved on the sentinel yet (so `closest_position` is still the initial empty
list and `closest_distance` is still the sentinel), or `closest_position` is a
full 3-component candidate position. -/
def ScanInv (s : ScanState α) : Prop :=
  (s.closest_position = [] ∧ s.closest_distance = (INITIALISATION_DISTANCE : α))
  ∨ s.closest_position.length = 3

/-- Recogniser for the query-node creation event. -/
def Event.isCreateNode {ι : Type} : Event α ι → Bool
  | Event.createNode => true
  | _ => false

/-- Recogniser for the query-node deletion event. -/
def Event.isDeleteNode {ι : Type} : Event α ι → Bool
  | Event.deleteNode => true
  | _ => false

/-- Recogniser for vertex-move events. -/
def Event.isMove {ι : Type} : Event α ι → Bool
  | Event.move _ _ => true
  | _ => false

/-- A concrete environment used to evaluate the snapping loop on examples:
squared x-distance as the distance oracle, one candidate at the origin, no
cancellation. -/
def envOneCand : SnapEnv ℤ ℕ :=
  { dist := fun p c => (p.getD 0 0 - c.getD 0 0) ^ 2
    candidates := fun _ => [[0, 0, 0]]
    cancelled := fun _ => false
    pos0 := fun _ => [7, 7, 7] }

/-- A concrete environment whose candidate query returns no candidates (the
topology-anomaly case), with no cancellation. -/
def envNoCand : SnapEnv ℤ ℕ :=
  { dist := fun p c => (p.getD 0 0 - c.getD 0 0) ^ 2
    candidates := fun _ => []
    cancelled := fun _ => false
    pos0 := fun _ => [1, 2, 3] }

/-- A concrete environment whose cancellation flag is observed at the second
poll (poll index 1). -/
def envCancelAt1 : SnapEnv ℤ ℕ :=
  { dist := fun p c => (p.getD 0 0 - c.getD 0 0) ^ 2
    candidates := fun _ => [[2, 2, 2]]
    cancelled := fun n => n == 1
    pos0 := fun _ => [5, 5, 5] }

/-! ## Characterisation of the candidate scan -/

/-- A list of length three is a literal three-element list. -/
theorem length_three_eq {β : Type} {l : List β} (h : l.length = 3) :
    ∃ x y z, l = [x, y, z] := by
  cases l with
  | nil => simp at h
  | cons x t =>
    cases t with
    | nil => simp at h
    | cons y t2 =>
      cases t2 with
      | nil => simp at h
      | cons z t3 =>
        cases t3 with
        | nil => exact ⟨x, y, z, rfl⟩
        | cons w t4 => simp at h

/-- The running minimum never increases along the candidate scan. -/
theorem foldArgmin_fst_le (d : List α → α) (cs : List (List α)) :
    ∀ st : α × List α, (foldArgmin d st cs).1 ≤ st.1 := by
  induction cs with
  | nil => intro st; simp [foldArgmin]
  | cons c cs ih =>
    rintro ⟨cd, cp⟩
    simp only [foldArgmin]
    by_cases h : d c < cd
    · rw [if_pos h]
      exact le_trans (ih (d c, c)) (le_of_lt h)
    · rw [if_neg h]
      exact ih (cd, cp)

/-- The final running minimum is a lower bound of every candidate distance. -/
theorem foldArgmin_fst_le_mem (d : List α → α) (cs : List (List α)) :
    ∀ (st : α × List α) (c : List α), c ∈ cs → (foldArgmin d st cs).1 ≤ d c := by
  induction cs with
  | nil =>
    intro st c hc
    cases hc
  | cons a cs ih =>
    rintro ⟨cd, cp⟩ c hc
    simp only [foldArgmin]
    rcases List.mem_cons.mp hc with h | h
    · subst h
      by_cases hlt : d c < cd
      · rw [if_pos hlt]
        exact foldArgmin_fst_le d cs (d c, c)
      · rw [if_neg hlt]
        exact le_trans (foldArgmin_fst_le d cs (cd, cp)) (not_lt.mp hlt)
    · by_cases hlt : d a < cd
      · rw [if_pos hlt]
        exact ih (d a, a) c h
      · rw [if_neg hlt]
        exact ih (cd, cp) c h

/-- The scan either never updates its running pair, or ends with
`closest_position` a candidate whose distance is the final running minimum. -/
theorem foldArgmin_eq_or_mem (d : List α → α) (cs : List (List α)) :
    ∀ st : α × List α, foldArgmin d st cs = st ∨
      ((foldArgmin d st cs).2 ∈ cs ∧
        d (foldArgmin d st cs).2 = (foldArgmin d st cs).1) := by
  induction cs with
  | nil =>
    intro st
    left
    simp [foldArgmin]
  | cons a cs ih =>
    rintro ⟨cd, cp⟩
    simp only [foldArgmin]
    by_cases h : d a < cd
    · rw [if_pos h]
      rcases ih (d a, a) with heq | ⟨hm, hd⟩
      · right
        rw [heq]
        exact ⟨List.mem_cons_self a cs, rfl⟩
      · right
        exact ⟨List.mem_cons_of_mem a hm, hd⟩
    · rw [if_neg h]
      rcases ih (cd, cp) with heq | ⟨hm, hd⟩
      · left
        exact heq
      · right
        exact ⟨List.mem_cons_of_mem a hm, hd⟩

/-- Applying a concatenation of two move sequences is applying them in turn. -/
theorem lastMove_append (xs ys : List (List α)) :
    ∀ p : List α, lastMove p (xs ++ ys) = lastMove (lastMove p xs) ys := by
  induction xs with
  | nil => intro p; rfl
  | cons q qs ih =>
    intro p
    simp only [List.cons_append, lastMove]
    exact ih q

/-- Where the interleaved moves of one candidate scan leave the vertex: at the
final `closest_position` when the final running minimum is under tolerance,
and untouched otherwise (for a non-empty candidate list). -/
theorem lastMove_move_positions (d : List α → α) (tolerance : α) :
    ∀ (cs : List (List α)) (cd : α) (cp p : List α), cs ≠ [] →
      lastMove p (move_positions d tolerance (cd, cp) cs) =
        if (foldArgmin d (cd, cp) cs).1 < tolerance then
          (foldArgmin d (cd, cp) cs).2
        else p := by
  intro cs
  induction cs with
  | nil =>
    intro cd cp p h
    exact absurd rfl h
  | cons a cs ih =>
    intro cd cp p _
    by_cases hupd : d a < cd
    all_goals by_cases hcs : cs = []
    · subst hcs
      simp only [move_positions, foldArgmin, hupd, if_true, List.append_nil]
      by_cases hmv : d a < tolerance
      · rw [if_pos hmv, if_pos hmv]
        rfl
      · rw [if_neg hmv, if_neg hmv]
        rfl
    · have key := ih (d a) a (lastMove p (if d a < tolerance then [a] else []))
        hcs
      simp only [move_positions, foldArgmin, hupd, if_true]
      rw [lastMove_append, key]
      by_cases hfin : (foldArgmin d (d a, a) cs).1 < tolerance
      · rw [if_pos hfin, if_pos hfin]
      · rw [if_neg hfin, if_neg hfin]
        have hle : (foldArgmin d (d a, a) cs).1 ≤ d a :=
          foldArgmin_fst_le d cs (d a, a)
        have : ¬ d a < tolerance := fun hlt =>
          hfin (lt_of_le_of_lt hle hlt)
        rw [if_neg this]
        rfl
    · subst hcs
      simp only [move_positions, foldArgmin, hupd, if_false, List.append_nil]
      by_cases hmv : cd < tolerance
      · rw [if_pos hmv, if_pos hmv]
        rfl
      · rw [if_neg hmv, if_neg hmv]
        rfl
    · have key := ih cd cp (lastMove p (if cd < tolerance then [cp] else []))
        hcs
      simp only [move_positions, foldArgmin, hupd, if_false]
      rw [lastMove_append, key]
      by_cases hfin : (foldArgmin d (cd, cp) cs).1 < tolerance
      · rw [if_pos hfin, if_pos hfin]
      · rw [if_neg hfin, if_neg hfin]
        have hle : (foldArgmin d (cd, cp) cs).1 ≤ cd :=
          foldArgmin_fst_le d cs (cd, cp)
        have : ¬ cd < tolerance := fun hlt =>
          hfin (lt_of_le_of_lt hle hlt)
        rw [if_neg this]
        rfl

/-- Main characterisation of the candidate loop (source lines 95–106): when
the tolerance does not exceed the sentinel and every candidate position has
three components, the scan completes without an `IndexError`, its final
running pair is `foldArgmin`, its move trace is `move_positions`, and the
vertex ends at the last move target. -/
theorem candidate_scan_spec (d : List α → α) (tolerance : α)
    (htol : tolerance ≤ (INITIALISATION_DISTANCE : α)) :
    ∀ (cs : List (List α)) (s : ScanState α), ScanInv s →
      (∀ c ∈ cs, c.length = 3) →
      ∃ f, candidate_scan d tolerance s cs = some f ∧
        f.closest_distance =
          (foldArgmin d (s.closest_distance, s.closest_position) cs).1 ∧
        f.closest_position =
          (foldArgmin d (s.closest_distance, s.closest_position) cs).2 ∧
        f.move_trace = s.move_trace
          ++ move_positions d tolerance (s.closest_distance, s.closest_position) cs ∧
        f.vertex_pos = lastMove s.vertex_pos
          (move_positions d tolerance (s.closest_distance, s.closest_position) cs) := by
  intro cs
  induction cs with
  | nil =>
    rintro ⟨cd, cp, vp, mt⟩ hinv hlen
    exact ⟨⟨cd, cp, vp, mt⟩, rfl, rfl, rfl,
      by simp [move_positions], rfl⟩
  | cons c cs ih =>
    rintro ⟨cd, cp, vp, mt⟩ hinv hlen
    have hlen3 : c.length = 3 := hlen c (List.mem_cons_self c cs)
    have hlenT : ∀ a ∈ cs, a.length = 3 := fun a ha =>
      hlen a (List.mem_cons_of_mem c ha)
    by_cases hupd : d c < cd
    · by_cases hmv : d c < tolerance
      · obtain ⟨x, y, z, hxyz⟩ := length_three_eq hlen3
        subst hxyz
        obtain ⟨f, hf, h1, h2, h3, h4⟩ :=
          ih ⟨d [x, y, z], [x, y, z], [x, y, z], mt ++ [[x, y, z]]⟩
            (Or.inr rfl) hlenT
        refine ⟨f, ?_, ?_, ?_, ?_, ?_⟩
        · simp only [candidate_scan, candidate_step, hupd, if_true, hmv]
          exact hf
        · simp only [foldArgmin, hupd, if_true]
          exact h1
        · simp only [foldArgmin, hupd, if_true]
          exact h2
        · simp only [move_positions, foldArgmin, hupd, if_true, hmv]
          rw [h3]
          simp
        · simp only [move_positions, hupd, if_true, hmv]
          rw [h4]
          rfl
      · obtain ⟨f, hf, h1, h2, h3, h4⟩ :=
          ih ⟨d c, c, vp, mt⟩ (Or.inr hlen3) hlenT
        refine ⟨f, ?_, ?_, ?_, ?_, ?_⟩
        · simp only [candidate_scan, candidate_step, hupd, if_true, hmv,
            if_false]
          exact hf
        · simp only [foldArgmin, hupd, if_true]
          exact h1
        · simp only [foldArgmin, hupd, if_true]
          exact h2
        · simp only [move_positions, hupd, if_true, hmv, if_false]
          rw [h3]
          simp
        · simp only [move_positions, hupd, if_true, hmv, if_false]
          rw [h4]
          rfl
    · by_cases hmv : cd < tolerance
      · have hcp3 : cp.length = 3 := by
          rcases hinv with ⟨hcp, hcd⟩ | h3
          · dsimp only at hcd
            rw [hcd] at hmv
            exact absurd hmv (not_lt.mpr htol)
          · exact h3
        obtain ⟨x, y, z, hxyz⟩ := length_three_eq hcp3
        subst hxyz
        obtain ⟨f, hf, h1, h2, h3, h4⟩ :=
          ih ⟨cd, [x, y, z], [x, y, z], mt ++ [[x, y, z]]⟩ (Or.inr rfl) hlenT
        refine ⟨f, ?_, ?_, ?_, ?_, ?_⟩
        · simp only [candidate_scan, candidate_step, hupd, if_false, hmv,
            if_true]
          exact hf
        · simp only [foldArgmin, hupd, if_false]
          exact h1
        · simp only [foldArgmin, hupd, if_false]
          exact h2
        · simp only [move_positions, hupd, if_false, hmv, if_true]
          rw [h3]
          simp
        · simp only [move_positions, hupd, if_false, hmv, if_true]
          rw [h4]
          rfl
      · obtain ⟨f, hf, h1, h2, h3, h4⟩ :=
          ih ⟨cd, cp, vp, mt⟩ hinv hlenT
        refine ⟨f, ?_, ?_, ?_, ?_, ?_⟩
        · simp only [candidate_scan, candidate_step, hupd, if_false, hmv]
          exact hf
        · simp only [foldArgmin, hupd, if_false]
          exact h1
        · simp only [foldArgmin, hupd, if_false]
          exact h2
        · simp only [move_positions, hupd, if_false, hmv]
          rw [h3]
          simp
        · simp only [move_positions, hupd, if_false, hmv]
          rw [h4]
          rfl

/-! ## Vector math: claims C4 and C5 -/

/-- **C4**: for all pairs of 3D points `a` and `b`, `get_magnitude a b` equals
`sqrt ((a.x−b.x)² + (a.y−b.y)² + (a.z−b.z)²)` and is non-negative.  (That it
has no side effects is expressed by the embedding itself: `get_magnitude` is a
pure function of its two arguments.) -/
theorem claim_C4 (a b : ℝ × ℝ × ℝ) :
    get_magnitude a b =
      Real.sqrt ((a.1 - b.1) ^ 2 + (a.2.1 - b.2.1) ^ 2 + (a.2.2 - b.2.2) ^ 2) ∧
    0 ≤ get_magnitude a b := by
  constructor
  · show Real.sqrt _ = _
    congr 1
    ring
  · exact Real.sqrt_nonneg _

/-- **C5**: `get_magnitude` is symmetric in its two arguments. -/
theorem claim_C5 (a b : ℝ × ℝ × ℝ) : get_magnitude a b = get_magnitude b a := by
  show Real.sqrt _ = Real.sqrt _
  congr 1
  ring

/-! ## Further facts about `foldArgmin` -/

/-- A common lower bound of the initial running minimum and of all candidate
distances bounds the final running minimum from below. -/
theorem le_foldArgmin_fst (d : List α → α) (b : α) :
    ∀ (cs : List (List α)) (st : α × List α), b ≤ st.1 →
      (∀ c ∈ cs, b ≤ d c) → b ≤ (foldArgmin d st cs).1 := by
  intro cs
  induction cs with
  | nil =>
    intro st h _
    simpa [foldArgmin] using h
  | cons a cs ih =>
    rintro ⟨cd, cp⟩ h hall
    simp only [foldArgmin]
    by_cases hlt : d a < cd
    · rw [if_pos hlt]
      exact ih (d a, a) (hall a (List.mem_cons_self a cs))
        (fun c hc => hall c (List.mem_cons_of_mem a hc))
    · rw [if_neg hlt]
      exact ih (cd, cp) h (fun c hc => hall c (List.mem_cons_of_mem a hc))

/-- Two scans that differ only in their initial running pair agree whenever
the larger-initialised scan ends strictly below the smaller initial value:
from then on both were driven by the candidates alone. -/
theorem foldArgmin_init_agree (d : List α → α) :
    ∀ (cs : List (List α)) (cd cd' : α) (cp cp' : List α), cd ≤ cd' →
      (foldArgmin d (cd', cp') cs).1 < cd →
      foldArgmin d (cd, cp) cs = foldArgmin d (cd', cp') cs := by
  intro cs
  induction cs with
  | nil =>
    intro cd cd' cp cp' hle hlt
    simp only [foldArgmin] at hlt
    exact absurd hlt (not_lt.mpr hle)
  | cons a cs ih =>
    intro cd cd' cp cp' hle hlt
    simp only [foldArgmin] at hlt ⊢
    by_cases h' : d a < cd'
    · rw [if_pos h'] at hlt
      by_cases h : d a < cd
      · rw [if_pos h, if_pos h']
      · rw [if_neg h, if_pos h']
        exact ih cd (d a) cp a (not_lt.mp h) hlt
    · rw [if_neg h'] at hlt
      have h : ¬ d a < cd := fun hh => h' (lt_of_lt_of_le hh hle)
      rw [if_neg h, if_neg h']
      exact ih cd cd' cp cp' hle hlt

/-- A move fires at most once per candidate step. -/
theorem move_positions_length_le (d : List α → α) (tolerance : α) :
    ∀ (cs : List (List α)) (st : α × List α),
      (move_positions d tolerance st cs).length ≤ cs.length := by
  intro cs
  induction cs with
  | nil =>
    intro st
    simp [move_positions]
  | cons a cs ih =>
    rintro ⟨cd, cp⟩
    simp only [move_positions]
    by_cases hupd : d a < cd
    · rw [if_pos hupd, if_pos hupd]
      by_cases hmv : d a < tolerance
      · rw [if_pos hmv]
        have := ih (d a, a)
        simp only [List.singleton_append, List.length_cons]
        omega
      · rw [if_neg hmv]
        have := ih (d a, a)
        simp only [List.nil_append, List.length_cons]
        omega
    · rw [if_neg hupd, if_neg hupd]
      by_cases hmv : cd < tolerance
      · rw [if_pos hmv]
        have := ih (cd, cp)
        simp only [List.singleton_append, List.length_cons]
        omega
      · rw [if_neg hmv]
        have := ih (cd, cp)
        simp only [List.nil_append, List.length_cons]
        omega

/-! ## Claim C1: final position of one vertex's candidate scan -/

/-- **C1 counterexample**: the claim as stated fails when `tolerance` exceeds
the sentinel `2³²−1`.  Vertex at the origin, one candidate at
`[2³², 0, 0]` (distance `2³²`, measured along the x-axis by the distance
oracle), tolerance `2³³`.  The minimum candidate distance `2³²` is strictly
under tolerance, so the claim demands that the scan end with the vertex at
`[2³², 0, 0]`; instead, at the first candidate step no update fires
(`2³² < 2³²−1` is false) while the sentinel is already under tolerance, so the
move statement indexes the still-empty `closest_position` and the scan aborts
with an `IndexError` (`none`), leaving no final position at all. -/
theorem claim_C1_counterexample :
    ([(2 : ℤ) ^ 32, 0, 0] : List ℤ).getD 0 0 < (2 : ℤ) ^ 33 ∧
    candidate_scan (fun c => c.getD 0 0) ((2 : ℤ) ^ 33) (initState [0, 0, 0])
      [[(2 : ℤ) ^ 32, 0, 0]] = none ∧
    ¬ ∃ f, candidate_scan (fun c => c.getD 0 0) ((2 : ℤ) ^ 33)
        (initState [0, 0, 0]) [[(2 : ℤ) ^ 32, 0, 0]] = some f ∧
        f.vertex_pos = [(2 : ℤ) ^ 32, 0, 0] := by
  refine ⟨by norm_num, rfl, ?_⟩
  rintro ⟨f, hf, -⟩
  rw [show candidate_scan (fun c => c.getD 0 0) ((2 : ℤ) ^ 33)
      (initState [0, 0, 0]) [[(2 : ℤ) ^ 32, 0, 0]] = none from rfl] at hf
  exact Option.noConfusion hf

/-- **C1 (amended)**: provided `tolerance` does not exceed the sentinel
`2³²−1` and every candidate position has three components (as
`cmds.pointPosition` guarantees): for a vertex whose candidate set contains a
candidate `c₀` of minimum distance, the scan completes, and if that minimum
distance is strictly under tolerance the vertex's final position is the
position of a minimum-distance candidate, while otherwise the vertex's
position is unchanged. -/
theorem claim_C1 (d : List α → α) (tolerance : α) (p c₀ : List α)
    (cs : List (List α))
    (htol : tolerance ≤ (INITIALISATION_DISTANCE : α))
    (hlen : ∀ c ∈ cs, c.length = 3)
    (hc₀ : c₀ ∈ cs) (hmin : ∀ c ∈ cs, d c₀ ≤ d c) :
    ∃ f, candidate_scan d tolerance (initState p) cs = some f ∧
      (d c₀ < tolerance → f.vertex_pos ∈ cs ∧ d f.vertex_pos = d c₀) ∧
      (tolerance ≤ d c₀ → f.vertex_pos = p) := by
  obtain ⟨f, hf, h1, h2, h3, h4⟩ :=
    candidate_scan_spec d tolerance htol cs (initState p) (Or.inl ⟨rfl, rfl⟩)
      hlen
  have hne : cs ≠ [] := by
    intro h
    subst h
    cases hc₀
  have h4' : f.vertex_pos =
      if (foldArgmin d ((INITIALISATION_DISTANCE : α), []) cs).1 < tolerance
      then (foldArgmin d ((INITIALISATION_DISTANCE : α), []) cs).2
      else p := by
    rw [h4]
    exact lastMove_move_positions d tolerance cs _ _ p hne
  refine ⟨f, hf, ?_, ?_⟩
  · intro hlt
    have hub : (foldArgmin d ((INITIALISATION_DISTANCE : α), []) cs).1 ≤ d c₀ :=
      foldArgmin_fst_le_mem d cs _ c₀ hc₀
    have hcond :
        (foldArgmin d ((INITIALISATION_DISTANCE : α), []) cs).1 < tolerance :=
      lt_of_le_of_lt hub hlt
    rw [h4', if_pos hcond]
    rcases foldArgmin_eq_or_mem d cs ((INITIALISATION_DISTANCE : α), [])
      with heq | ⟨hm, hd⟩
    · exfalso
      rw [heq] at hcond
      exact absurd hcond (not_lt.mpr htol)
    · refine ⟨hm, le_antisymm ?_ (hmin _ hm)⟩
      rw [hd]
      exact hub
  · intro hge
    have hnot :
        ¬ (foldArgmin d ((INITIALISATION_DISTANCE : α), []) cs).1 < tolerance := by
      rcases foldArgmin_eq_or_mem d cs ((INITIALISATION_DISTANCE : α), [])
        with heq | ⟨hm, hd⟩
      · rw [heq]
        exact not_lt.mpr htol
      · rw [← hd]
        exact not_lt.mpr (le_trans hge (hmin _ hm))
    rw [h4', if_neg hnot]

/-- Witness for the amended C1: a vertex at the origin with candidates at
distances 3 and 1 and tolerance 2 is moved to the distance-1 candidate. -/
theorem claim_C1_witness :
    ((2 : ℤ) ≤ (INITIALISATION_DISTANCE : ℤ) ∧
     (∀ c ∈ ([[3, 0, 0], [1, 0, 0]] : List (List ℤ)), c.length = 3) ∧
     ([1, 0, 0] : List ℤ) ∈ ([[3, 0, 0], [1, 0, 0]] : List (List ℤ)) ∧
     (∀ c ∈ ([[3, 0, 0], [1, 0, 0]] : List (List ℤ)),
       ([1, 0, 0] : List ℤ).getD 0 0 ≤ c.getD 0 0)) ∧
    (∃ f, candidate_scan (fun c => c.getD 0 0) (2 : ℤ) (initState [0, 0, 0])
        [[3, 0, 0], [1, 0, 0]] = some f ∧
      (([1, 0, 0] : List ℤ).getD 0 0 < 2 →
        f.vertex_pos ∈ ([[3, 0, 0], [1, 0, 0]] : List (List ℤ)) ∧
        f.vertex_pos.getD 0 0 = ([1, 0, 0] : List ℤ).getD 0 0) ∧
      ((2 : ℤ) ≤ ([1, 0, 0] : List ℤ).getD 0 0 → f.vertex_pos = [0, 0, 0])) :=
  ⟨⟨by decide, by decide, by decide, by decide⟩,
    claim_C1 (fun c => c.getD 0 0) 2 [0, 0, 0] [1, 0, 0]
      [[3, 0, 0], [1, 0, 0]] (by decide) (by decide) (by decide) (by decide)⟩

/-! ## Claim C2: how often a vertex moves within one iteration -/

/-- **C2 counterexample**: vertex at the origin, candidates at distances 5 and
1 (both under tolerance 10).  The scan issues a move at both candidate steps,
to two distinct positions — the vertex's position is modified twice within a
single iteration of the snapping loop, refuting "modified at most once per
iteration". -/
theorem claim_C2_counterexample :
    (candidate_scan (fun c => c.getD 0 0) (10 : ℤ) (initState [0, 0, 0])
        [[5, 0, 0], [1, 0, 0]]).map
      (fun s => (s.move_trace, numChanges [0, 0, 0] s.move_trace)) =
      some ([[5, 0, 0], [1, 0, 0]], 2) := by
  decide

/-- **C2 (amended)**: within one iteration of the outer snapping loop
(provided `tolerance` does not exceed the sentinel and candidate positions
have three components), a move command is issued at every candidate step at
which the running `closest_distance` — after the possible update at that step
— is strictly under tolerance, not only at strictly-improving steps; each move
targets the running `closest_position`, which changes exactly at
strictly-improving steps.  Hence the vertex may be moved several times per
iteration, though at most once per candidate step. -/
theorem claim_C2 (d : List α → α) (tolerance : α) (p : List α)
    (cs : List (List α))
    (htol : tolerance ≤ (INITIALISATION_DISTANCE : α))
    (hlen : ∀ c ∈ cs, c.length = 3) :
    ∃ f, candidate_scan d tolerance (initState p) cs = some f ∧
      f.move_trace =
        move_positions d tolerance ((INITIALISATION_DISTANCE : α), []) cs ∧
      f.move_trace.length ≤ cs.length := by
  obtain ⟨f, hf, h1, h2, h3, h4⟩ :=
    candidate_scan_spec d tolerance htol cs (initState p) (Or.inl ⟨rfl, rfl⟩)
      hlen
  have htr : f.move_trace =
      move_positions d tolerance ((INITIALISATION_DISTANCE : α), []) cs := by
    rw [h3]
    simp [initState]
  exact ⟨f, hf, htr, htr ▸ move_positions_length_le d tolerance cs _⟩

/-- Witness for the amended C2 at the counterexample input: the scan's move
trace is exactly the `move_positions` sequence (here two moves). -/
theorem claim_C2_witness :
    ((10 : ℤ) ≤ (INITIALISATION_DISTANCE : ℤ) ∧
     (∀ c ∈ ([[5, 0, 0], [1, 0, 0]] : List (List ℤ)), c.length = 3)) ∧
    (∃ f, candidate_scan (fun c => c.getD 0 0) (10 : ℤ) (initState [0, 0, 0])
        [[5, 0, 0], [1, 0, 0]] = some f ∧
      f.move_trace = move_positions (fun c => c.getD 0 0) (10 : ℤ)
        ((INITIALISATION_DISTANCE : ℤ), []) [[5, 0, 0], [1, 0, 0]] ∧
      f.move_trace.length ≤ ([[5, 0, 0], [1, 0, 0]] : List (List ℤ)).length) :=
  ⟨⟨by decide, by decide⟩,
    claim_C2 (fun c => c.getD 0 0) 10 [0, 0, 0] [[5, 0, 0], [1, 0, 0]]
      (by decide) (by decide)⟩

/-! ## Claim C3: interleaved moves versus one deferred move -/

/-- **C3 counterexample**: the equivalence fails when `tolerance` exceeds the
sentinel.  Vertex at the origin, one candidate at `[2³³, 0, 0]` (distance
`2³³`), tolerance `2³⁴`.  The deferred-move variant finds minimum distance
`2³³ < 2³⁴` and moves the vertex to the candidate; the implemented interleaved
scan aborts with an `IndexError` (`none`) at the first step and yields no
final position at all. -/
theorem claim_C3_counterexample :
    candidate_scan (fun c => c.getD 0 0) ((2 : ℤ) ^ 34) (initState [0, 0, 0])
      [[(2 : ℤ) ^ 33, 0, 0]] = none ∧
    snap_vertex_end_move (fun c => c.getD 0 0) ((2 : ℤ) ^ 34) [0, 0, 0]
      [[(2 : ℤ) ^ 33, 0, 0]] = [(2 : ℤ) ^ 33, 0, 0] := by
  exact ⟨rfl, rfl⟩

/-- **C3 (amended)**: provided `tolerance` does not exceed the sentinel and
candidate positions have three components, the implemented per-candidate
check-and-move interleaving completes and leaves the vertex exactly where the
deferred single-move variant `snap_vertex_end_move` puts it. -/
theorem claim_C3 (d : List α → α) (tolerance : α) (p : List α)
    (cs : List (List α))
    (htol : tolerance ≤ (INITIALISATION_DISTANCE : α))
    (hlen : ∀ c ∈ cs, c.length = 3) :
    ∃ f, candidate_scan d tolerance (initState p) cs = some f ∧
      f.vertex_pos = snap_vertex_end_move d tolerance p cs := by
  obtain ⟨f, hf, h1, h2, h3, h4⟩ :=
    candidate_scan_spec d tolerance htol cs (initState p) (Or.inl ⟨rfl, rfl⟩)
      hlen
  refine ⟨f, hf, ?_⟩
  cases cs with
  | nil =>
    rw [h4]
    simp [initState, move_positions, lastMove, snap_vertex_end_move]
  | cons c cs =>
    have h4' : f.vertex_pos =
        if (foldArgmin d ((INITIALISATION_DISTANCE : α), []) (c :: cs)).1
            < tolerance
        then (foldArgmin d ((INITIALISATION_DISTANCE : α), []) (c :: cs)).2
        else p := by
      rw [h4]
      exact lastMove_move_positions d tolerance (c :: cs) _ _ p
        (List.cons_ne_nil c cs)
    rw [h4']
    simp only [snap_vertex_end_move, foldArgmin]
    by_cases hc : d c < (INITIALISATION_DISTANCE : α)
    · rw [if_pos hc]
    · rw [if_neg hc]
      by_cases hr : (foldArgmin d (d c, c) cs).1 < tolerance
      · have hlt : (foldArgmin d (d c, c) cs).1 < (INITIALISATION_DISTANCE : α) :=
          lt_of_lt_of_le hr htol
        rw [foldArgmin_init_agree d cs (INITIALISATION_DISTANCE : α) (d c) []
          c (not_lt.mp hc) hlt]
      · rw [if_neg hr]
        have hnot :
            ¬ (foldArgmin d ((INITIALISATION_DISTANCE : α), []) cs).1
              < tolerance := by
          apply not_lt.mpr
          apply le_foldArgmin_fst d tolerance cs ((INITIALISATION_DISTANCE : α), [])
            htol
          intro a ha
          exact le_trans (not_lt.mp hr) (foldArgmin_fst_le_mem d cs (d c, c) a ha)
        rw [if_neg hnot]

/-- Witness for the amended C3: on a vertex at the origin with candidates at
distances 3 and 1 and tolerance 5, the interleaved scan and the deferred
single-move variant agree. -/
theorem claim_C3_witness :
    ((5 : ℤ) ≤ (INITIALISATION_DISTANCE : ℤ) ∧
     (∀ c ∈ ([[3, 0, 0], [1, 0, 0]] : List (List ℤ)), c.length = 3)) ∧
    (∃ f, candidate_scan (fun c => c.getD 0 0) (5 : ℤ) (initState [0, 0, 0])
        [[3, 0, 0], [1, 0, 0]] = some f ∧
      f.vertex_pos = snap_vertex_end_move (fun c => c.getD 0 0) (5 : ℤ)
        [0, 0, 0] [[3, 0, 0], [1, 0, 0]]) :=
  ⟨⟨by decide, by decide⟩,
    claim_C3 (fun c => c.getD 0 0) 5 [0, 0, 0] [[3, 0, 0], [1, 0, 0]]
      (by decide) (by decide)⟩

/-! ## Claim C6: non-positive tolerance never moves anything -/

/-- With a non-negative distance oracle and non-positive tolerance, a
candidate scan started with a non-negative running minimum completes without
issuing any move. -/
theorem candidate_scan_no_move (d : List α → α) (tolerance : α)
    (hd : ∀ c, 0 ≤ d c) (htol : tolerance ≤ 0) :
    ∀ (cs : List (List α)) (s : ScanState α), 0 ≤ s.closest_distance →
      ∃ f, candidate_scan d tolerance s cs = some f ∧
        f.vertex_pos = s.vertex_pos ∧ f.move_trace = s.move_trace := by
  intro cs
  induction cs with
  | nil =>
    intro s h
    exact ⟨s, rfl, rfl, rfl⟩
  | cons c cs ih =>
    rintro ⟨cd, cp, vp, mt⟩ h
    by_cases hupd : d c < cd
    · have hnm : ¬ d c < tolerance := fun hh =>
        absurd (lt_of_lt_of_le hh htol) (not_lt.mpr (hd c))
      obtain ⟨f, hf, h1, h2⟩ := ih ⟨d c, c, vp, mt⟩ (hd c)
      refine ⟨f, ?_, h1, h2⟩
      simp only [candidate_scan, candidate_step, hupd, if_true, hnm, if_false]
      exact hf
    · have h0 : (0 : α) ≤ cd := h
      have hnm : ¬ cd < tolerance := fun hh =>
        absurd (lt_of_lt_of_le hh htol) (not_lt.mpr h0)
      obtain ⟨f, hf, h1, h2⟩ := ih ⟨cd, cp, vp, mt⟩ h
      refine ⟨f, ?_, h1, h2⟩
      simp only [candidate_scan, candidate_step, hupd, if_false, hnm]
      exact hf

/-- With a non-negative distance oracle and non-positive tolerance, the
snapping loop completes, leaves every position untouched and issues no move
event. -/
theorem snap_loop_no_move {ι : Type} [DecidableEq ι] (env : SnapEnv α ι)
    (tolerance : α) (hd : ∀ p c, 0 ≤ env.dist p c) (htol : tolerance ≤ 0) :
    ∀ (vs : List ι) (pos : ι → List α) (k : ℕ),
      ∃ tr, snap_loop env tolerance pos k vs = some (pos, tr) ∧
        ∀ e ∈ tr, e.isMove = false := by
  intro vs
  induction vs with
  | nil =>
    intro pos k
    exact ⟨[], rfl, by simp⟩
  | cons v vs ih =>
    intro pos k
    by_cases hc : env.cancelled k
    · refine ⟨[Event.poll true], by simp [snap_loop, hc], ?_⟩
      intro e he
      simp at he
      subst he
      rfl
    · obtain ⟨f, hf, h1, h2⟩ := candidate_scan_no_move (env.dist (pos v))
        tolerance (hd (pos v)) htol (env.candidates (pos v))
        (initState (pos v)) (Nat.cast_nonneg _)
      obtain ⟨tr, htr, hmv⟩ := ih (Function.update pos v f.vertex_pos) (k + 1)
      have hps : Function.update pos v f.vertex_pos = pos := by
        rw [h1]
        exact Function.update_eq_self v pos
      rw [hps] at htr
      have h2' : f.move_trace = [] := h2
      refine ⟨[Event.poll false] ++ f.move_trace.map (Event.move v)
        ++ [Event.step] ++ tr, ?_, ?_⟩
      · simp only [snap_loop, hf, hps, htr]
        rw [if_neg hc]
      · intro e he
        rw [h2'] at he
        simp only [List.map_nil, List.nil_append, List.cons_append,
          List.mem_cons, List.mem_append, List.mem_singleton] at he
        rcases he with h | h | h
        · subst h
          rfl
        · subst h
          rfl
        · exact hmv e h

/-- **C6**: if `tolerance ≤ 0` (the distance oracle being non-negative, as
`get_magnitude` is by C4), a run of `snap_to_closest_vertex` completes with
every vertex position unchanged and no move event in its trace. -/
theorem claim_C6 {ι : Type} [DecidableEq ι] (env : SnapEnv α ι)
    (vertices : List ι) (tolerance : α)
    (hd : ∀ p c, 0 ≤ env.dist p c) (htol : tolerance ≤ 0) :
    ∃ tr, snap_to_closest_vertex env vertices tolerance = some (env.pos0, tr) ∧
      ∀ e ∈ tr, e.isMove = false := by
  obtain ⟨tr, htr, hmv⟩ :=
    snap_loop_no_move env tolerance hd htol vertices env.pos0 0
  refine ⟨[Event.beginProgress vertices.length, Event.loadPlugin,
    Event.createNode] ++ tr ++ [Event.endProgress, Event.deleteNode], ?_, ?_⟩
  · simp only [snap_to_closest_vertex, htr]
  · intro e he
    simp at he
    rcases he with h | h | h | h | h | h
    · subst h; rfl
    · subst h; rfl
    · subst h; rfl
    · exact hmv e h
    · subst h; rfl
    · subst h; rfl

/-- Witness for C6: with tolerance `0`, a one-vertex run in a concrete
environment performs no move and leaves the position map unchanged. -/
theorem claim_C6_witness :
    ((∀ p c, 0 ≤ envOneCand.dist p c) ∧ (0 : ℤ) ≤ 0) ∧
    (∃ tr, snap_to_closest_vertex envOneCand [0] (0 : ℤ) =
        some (envOneCand.pos0, tr) ∧ ∀ e ∈ tr, e.isMove = false) :=
  ⟨⟨fun p c => sq_nonneg _, le_refl 0⟩,
    claim_C6 envOneCand [0] 0 (fun p c => sq_nonneg _) (le_refl 0)⟩

/-! ## Claim C9: an empty candidate set leaves the vertex unmoved -/

/-- **C9**: if the candidate query for the vertex at the head of the work
list returns no candidates, that vertex is left unmoved (the position map is
passed on unchanged) and the loop continues with the remaining vertices,
contributing only its poll and progress-step events. -/
theorem claim_C9 {ι : Type} [DecidableEq ι] (env : SnapEnv α ι)
    (tolerance : α) (pos : ι → List α) (k : ℕ) (v : ι) (vs : List ι)
    (hcancel : env.cancelled k = false)
    (hempty : env.candidates (pos v) = []) :
    snap_loop env tolerance pos k (v :: vs) =
      (snap_loop env tolerance pos (k + 1) vs).map
        (fun r => (r.1, [Event.poll false, Event.step] ++ r.2)) := by
  have hnc : ¬ (env.cancelled k = true) := by
    simp [hcancel]
  have hscan : candidate_scan (env.dist (pos v)) tolerance
      (initState (pos v)) (env.candidates (pos v)) = some (initState (pos v)) := by
    rw [hempty]
    rfl
  have hps : Function.update pos v (initState (pos v)).vertex_pos = pos :=
    Function.update_eq_self v pos
  simp only [snap_loop, if_neg hnc, hscan, hps]
  cases h : snap_loop env tolerance pos (k + 1) vs with
  | none => rfl
  | some r =>
    obtain ⟨pos1, tr⟩ := r
    simp [initState]

/-- Witness for C9: in a concrete environment whose candidate query is empty,
processing `[0, 1]` is processing `[1]` with the head vertex untouched. -/
theorem claim_C9_witness :
    (envNoCand.cancelled 0 = false ∧
     envNoCand.candidates (envNoCand.pos0 0) = []) ∧
    snap_loop envNoCand (10 : ℤ) envNoCand.pos0 0 [0, 1] =
      (snap_loop envNoCand (10 : ℤ) envNoCand.pos0 1 [1]).map
        (fun r => (r.1, [Event.poll false, Event.step] ++ r.2)) :=
  ⟨⟨rfl, rfl⟩,
    claim_C9 envNoCand 10 envNoCand.pos0 0 0 [1] rfl rfl⟩

/-! ## Claim C7: cooperative cancellation truncates the loop -/

/-- The snapping loop never writes the position of a vertex identifier that
does not occur in its work list. -/
theorem snap_loop_untouched {ι : Type} [DecidableEq ι] (env : SnapEnv α ι)
    (tolerance : α) :
    ∀ (vs : List ι) (pos : ι → List α) (k : ℕ)
      (r : (ι → List α) × List (Event α ι)) (x : ι), x ∉ vs →
      snap_loop env tolerance pos k vs = some r → r.1 x = pos x := by
  intro vs
  induction vs with
  | nil =>
    intro pos k r x hx h
    simp only [snap_loop] at h
    injection h with h
    subst h
    rfl
  | cons v vs ih =>
    intro pos k r x hx h
    simp only [snap_loop] at h
    by_cases hc : env.cancelled k = true
    · rw [if_pos hc] at h
      injection h with h
      subst h
      rfl
    · rw [if_neg hc] at h
      cases hscan : candidate_scan (env.dist (pos v)) tolerance
          (initState (pos v)) (env.candidates (pos v)) with
      | none =>
        simp only [hscan] at h
        exact Option.noConfusion h
      | some s =>
        simp only [hscan] at h
        cases hrec : snap_loop env tolerance
            (Function.update pos v s.vertex_pos) (k + 1) vs with
        | none =>
          simp only [hrec] at h
          exact Option.noConfusion h
        | some r1 =>
          simp only [hrec] at h
          obtain ⟨pos1, tr⟩ := r1
          injection h with h
          subst h
          have hx1 : x ∉ vs := fun hh => hx (List.mem_cons_of_mem v hh)
          have hxv : x ≠ v := fun hh => hx (hh ▸ List.mem_cons_self v vs)
          have hres := ih (Function.update pos v s.vertex_pos) (k + 1)
            (pos1, tr) x hx1 hrec
          rw [Function.update_noteq hxv] at hres
          exact hres

/-- If the first `k` polls come back clear and the poll for the `(k+1)`-st
vertex observes cancellation, the run is the run on the first `k` vertices
followed by the final positive poll. -/
theorem snap_loop_truncate {ι : Type} [DecidableEq ι] (env : SnapEnv α ι)
    (tolerance : α) :
    ∀ (k : ℕ) (vs : List ι) (pos : ι → List α) (i : ℕ),
      (∀ j, j < k → env.cancelled (i + j) = false) →
      env.cancelled (i + k) = true → k < vs.length →
      snap_loop env tolerance pos i vs =
        (snap_loop env tolerance pos i (vs.take k)).map
          (fun r => (r.1, r.2 ++ [Event.poll true])) := by
  intro k
  induction k with
  | zero =>
    intro vs pos i hbefore hcancel hk
    cases vs with
    | nil => simp at hk
    | cons v vs =>
      have hc : env.cancelled i = true := by simpa using hcancel
      simp [snap_loop, hc]
  | succ k ih =>
    intro vs pos i hbefore hcancel hk
    cases vs with
    | nil => simp at hk
    | cons v vs =>
      have hc : env.cancelled i = false := by
        have h := hbefore 0 (Nat.succ_pos k)
        simpa using h
      have hnc : ¬ env.cancelled i = true := by simp [hc]
      have hb1 : ∀ j, j < k → env.cancelled (i + 1 + j) = false := by
        intro j hj
        have h := hbefore (j + 1) (by omega)
        rw [show i + (j + 1) = i + 1 + j by omega] at h
        exact h
      have hcancel1 : env.cancelled (i + 1 + k) = true := by
        have h := hcancel
        rw [show i + (k + 1) = i + 1 + k by omega] at h
        exact h
      have hk1 : k < vs.length := by
        simpa using Nat.lt_of_succ_lt_succ hk
      simp only [List.take_succ_cons, snap_loop]
      rw [if_neg hnc, if_neg hnc]
      cases hscan : candidate_scan (env.dist (pos v)) tolerance
          (initState (pos v)) (env.candidates (pos v)) with
      | none => rfl
      | some s =>
        dsimp only
        rw [ih vs (Function.update pos v s.vertex_pos) (i + 1) hb1 hcancel1
          hk1]
        cases h2 : snap_loop env tolerance
            (Function.update pos v s.vertex_pos) (i + 1) (vs.take k) with
        | none => rfl
        | some r =>
          obtain ⟨pos1, tr⟩ := r
          simp [List.append_assoc]

/-- **C7**: if cancellation is first observed at the poll for the `(k+1)`-st
vertex, the run equals the uncancelled run on the first `k` vertices (so
exactly those vertices were evaluated, in input order, and none of their
committed moves is undone), followed by the positive poll event; every vertex
identifier not among the first `k` keeps its initial position. -/
theorem claim_C7 {ι : Type} [DecidableEq ι] (env : SnapEnv α ι)
    (tolerance : α) (vs : List ι) (k : ℕ)
    (hbefore : ∀ j, j < k → env.cancelled j = false)
    (hcancel : env.cancelled k = true) (hk : k < vs.length) :
    snap_loop env tolerance env.pos0 0 vs =
      (snap_loop env tolerance env.pos0 0 (vs.take k)).map
        (fun r => (r.1, r.2 ++ [Event.poll true])) ∧
    ∀ r, snap_loop env tolerance env.pos0 0 vs = some r →
      ∀ x, x ∉ vs.take k → r.1 x = env.pos0 x := by
  have htr := snap_loop_truncate env tolerance k vs env.pos0 0
    (fun j hj => by simpa using hbefore j hj) (by simpa using hcancel) hk
  refine ⟨htr, ?_⟩
  intro r hr x hx
  rw [htr] at hr
  cases h2 : snap_loop env tolerance env.pos0 0 (vs.take k) with
  | none =>
    rw [h2] at hr
    exact absurd hr (by simp)
  | some r2 =>
    rw [h2] at hr
    obtain ⟨pos2, tr2⟩ := r2
    rw [Option.map_some'] at hr
    injection hr with hr
    subst hr
    exact snap_loop_untouched env tolerance (vs.take k) env.pos0 0
      (pos2, tr2) x hx h2

/-- Witness for C7: in a concrete environment cancelled at poll index 1,
running on two vertices equals running on the first vertex alone plus the
positive poll, and the second vertex keeps its initial position. -/
theorem claim_C7_witness :
    ((∀ j, j < 1 → envCancelAt1.cancelled j = false) ∧
     envCancelAt1.cancelled 1 = true ∧ 1 < ([0, 1] : List ℕ).length) ∧
    (snap_loop envCancelAt1 (10 : ℤ) envCancelAt1.pos0 0 [0, 1] =
      (snap_loop envCancelAt1 (10 : ℤ) envCancelAt1.pos0 0
          (([0, 1] : List ℕ).take 1)).map
        (fun r => (r.1, r.2 ++ [Event.poll true])) ∧
     ∀ r, snap_loop envCancelAt1 (10 : ℤ) envCancelAt1.pos0 0 [0, 1] = some r →
       ∀ x, x ∉ (([0, 1] : List ℕ).take 1) → r.1 x = envCancelAt1.pos0 x) :=
  ⟨⟨by decide, by decide, by decide⟩,
    claim_C7 envCancelAt1 10 [0, 1] 1 (by decide) (by decide) (by decide)⟩

/-! ## Claim C8: query-node lifecycle -/

/-- The snapping loop itself emits only poll, move and step events — in
particular it never creates or deletes the query node. -/
theorem snap_loop_events {ι : Type} [DecidableEq ι] (env : SnapEnv α ι)
    (tolerance : α) :
    ∀ (vs : List ι) (pos : ι → List α) (k : ℕ)
      (r : (ι → List α) × List (Event α ι)),
      snap_loop env tolerance pos k vs = some r →
      ∀ e ∈ r.2, e.isCreateNode = false ∧ e.isDeleteNode = false := by
  intro vs
  induction vs with
  | nil =>
    intro pos k r h
    simp only [snap_loop] at h
    injection h with h
    subst h
    intro e he
    simp at he
  | cons v vs ih =>
    intro pos k r h
    simp only [snap_loop] at h
    by_cases hc : env.cancelled k = true
    · rw [if_pos hc] at h
      injection h with h
      subst h
      intro e he
      simp at he
      subst he
      exact ⟨rfl, rfl⟩
    · rw [if_neg hc] at h
      cases hscan : candidate_scan (env.dist (pos v)) tolerance
          (initState (pos v)) (env.candidates (pos v)) with
      | none =>
        simp only [hscan] at h
        exact Option.noConfusion h
      | some s =>
        simp only [hscan] at h
        cases hrec : snap_loop env tolerance
            (Function.update pos v s.vertex_pos) (k + 1) vs with
        | none =>
          simp only [hrec] at h
          exact Option.noConfusion h
        | some r1 =>
          simp only [hrec] at h
          obtain ⟨pos1, tr⟩ := r1
          injection h with h
          subst h
          intro e he
          simp at he
          rcases he with h | ⟨q, hq, hqe⟩ | h | h
          · subst h
            exact ⟨rfl, rfl⟩
          · subst hqe
            exact ⟨rfl, rfl⟩
          · subst h
            exact ⟨rfl, rfl⟩
          · exact ih (Function.update pos v s.vertex_pos) (k + 1)
              (pos1, tr) hrec e h

/-- **C8**: on every completed run of `snap_to_closest_vertex` — normal
completion, empty vertex list, or cooperative cancellation midway — the trace
opens with progress-bar begin, plugin load and query-node creation in that
order, contains exactly one creation and exactly one deletion of the query
node, and ends with the deletion. -/
theorem claim_C8 {ι : Type} [DecidableEq ι] (env : SnapEnv α ι)
    (vertices : List ι) (tolerance : α)
    (r : (ι → List α) × List (Event α ι))
    (h : snap_to_closest_vertex env vertices tolerance = some r) :
    r.2.take 3 = [Event.beginProgress vertices.length, Event.loadPlugin,
      Event.createNode] ∧
    r.2.countP Event.isCreateNode = 1 ∧
    r.2.countP Event.isDeleteNode = 1 ∧
    ∃ l, r.2 = l ++ [Event.deleteNode] := by
  simp only [snap_to_closest_vertex] at h
  cases hloop : snap_loop env tolerance env.pos0 0 vertices with
  | none =>
    simp only [hloop] at h
    exact Option.noConfusion h
  | some rl =>
    simp only [hloop] at h
    obtain ⟨pos1, tr⟩ := rl
    injection h with h
    subst h
    have hev := snap_loop_events env tolerance vertices env.pos0 0
      (pos1, tr) hloop
    have hcr : tr.countP Event.isCreateNode = 0 := by
      rw [List.countP_eq_zero]
      intro e he
      simp [(hev e he).1]
    have hdl : tr.countP Event.isDeleteNode = 0 := by
      rw [List.countP_eq_zero]
      intro e he
      simp [(hev e he).2]
    refine ⟨rfl, ?_, ?_, ?_⟩
    · show ([Event.beginProgress vertices.length, Event.loadPlugin,
        Event.createNode] ++ tr ++ [Event.endProgress, Event.deleteNode]).countP
          Event.isCreateNode = 1
      rw [List.countP_append, List.countP_append, hcr]
      rfl
    · show ([Event.beginProgress vertices.length, Event.loadPlugin,
        Event.createNode] ++ tr ++ [Event.endProgress, Event.deleteNode]).countP
          Event.isDeleteNode = 1
      rw [List.countP_append, List.countP_append, hdl]
      rfl
    · refine ⟨[Event.beginProgress vertices.length, Event.loadPlugin,
        Event.createNode] ++ tr ++ [Event.endProgress], ?_⟩
      simp

/-- Witness for C8: an empty-vertex-list run in a concrete environment still
begins the progress bar, creates the node, and deletes it at the very end. -/
theorem claim_C8_witness :
    ∃ r, snap_to_closest_vertex envNoCand ([] : List ℕ) (10 : ℤ) = some r ∧
      (r.2.take 3 = [Event.beginProgress 0, Event.loadPlugin,
        Event.createNode] ∧
       r.2.countP Event.isCreateNode = 1 ∧
       r.2.countP Event.isDeleteNode = 1 ∧
       ∃ l, r.2 = l ++ [Event.deleteNode]) :=
  ⟨(envNoCand.pos0, [Event.beginProgress 0, Event.loadPlugin,
      Event.createNode, Event.endProgress, Event.deleteNode]), rfl,
    claim_C8 envNoCand [] 10 _ rfl⟩

/-! ## Claim C10: the move statement never indexes the empty initial list -/

/-- Under the sentinel proviso, every position a move fires at during a scan
started from a state satisfying the reachability invariant is a full
3-component position. -/
theorem move_positions_length (d : List α → α) (tolerance : α)
    (htol : tolerance ≤ (INITIALISATION_DISTANCE : α)) :
    ∀ (cs : List (List α)) (cd : α) (cp : List α),
      ((cp = [] ∧ cd = (INITIALISATION_DISTANCE : α)) ∨ cp.length = 3) →
      (∀ c ∈ cs, c.length = 3) →
      ∀ q ∈ move_positions d tolerance (cd, cp) cs, q.length = 3 := by
  intro cs
  induction cs with
  | nil =>
    intro cd cp _ _ q hq
    simp [move_positions] at hq
  | cons a cs ih =>
    intro cd cp hinv hlen q hq
    have hlen3 : a.length = 3 := hlen a (List.mem_cons_self a cs)
    have hlenT : ∀ c ∈ cs, c.length = 3 := fun c hc =>
      hlen c (List.mem_cons_of_mem a hc)
    simp only [move_positions] at hq
    by_cases hupd : d a < cd
    · rw [if_pos hupd, if_pos hupd] at hq
      by_cases hmv : d a < tolerance
      · rw [if_pos hmv] at hq
        rcases List.mem_append.mp hq with h | h
        · rw [List.mem_singleton] at h
          subst h
          exact hlen3
        · exact ih (d a) a (Or.inr hlen3) hlenT q h
      · rw [if_neg hmv, List.nil_append] at hq
        exact ih (d a) a (Or.inr hlen3) hlenT q hq
    · rw [if_neg hupd, if_neg hupd] at hq
      by_cases hmv : cd < tolerance
      · have hcp3 : cp.length = 3 := by
          rcases hinv with ⟨hcp, hcd⟩ | h3
          · rw [hcd] at hmv
            exact absurd hmv (not_lt.mpr htol)
          · exact h3
        rw [if_pos hmv] at hq
        rcases List.mem_append.mp hq with h | h
        · rw [List.mem_singleton] at h
          subst h
          exact hcp3
        · exact ih cd cp hinv hlenT q h
      · rw [if_neg hmv, List.nil_append] at hq
        exact ih cd cp hinv hlenT q hq

/-- Under the sentinel proviso and the 3-component candidate contract, the
snapping loop completes (no `IndexError`) and every move event targets a full
3-component position. -/
theorem snap_loop_safe {ι : Type} [DecidableEq ι] (env : SnapEnv α ι)
    (tolerance : α) (htol : tolerance ≤ (INITIALISATION_DISTANCE : α))
    (hcand : ∀ p c, c ∈ env.candidates p → c.length = 3) :
    ∀ (vs : List ι) (pos : ι → List α) (k : ℕ),
      ∃ r, snap_loop env tolerance pos k vs = some r ∧
        ∀ v q, Event.move v q ∈ r.2 → q.length = 3 := by
  intro vs
  induction vs with
  | nil =>
    intro pos k
    refine ⟨(pos, []), rfl, ?_⟩
    intro v q hq
    simp at hq
  | cons v vs ih =>
    intro pos k
    by_cases hc : env.cancelled k = true
    · refine ⟨(pos, [Event.poll true]), by simp [snap_loop, hc], ?_⟩
      intro w q hq
      simp at hq
    · obtain ⟨f, hf, h1, h2, h3, h4⟩ :=
        candidate_scan_spec (env.dist (pos v)) tolerance htol
          (env.candidates (pos v)) (initState (pos v)) (Or.inl ⟨rfl, rfl⟩)
          (fun c hc => hcand (pos v) c hc)
      obtain ⟨r, hr, hmem⟩ := ih (Function.update pos v f.vertex_pos) (k + 1)
      obtain ⟨pos1, tr⟩ := r
      refine ⟨(pos1, [Event.poll false] ++ f.move_trace.map (Event.move v)
        ++ [Event.step] ++ tr), ?_, ?_⟩
      · simp only [snap_loop, hf, hr]
        rw [if_neg hc]
      · intro w q hq
        simp at hq
        rcases hq with ⟨hq, hw⟩ | hq
        · have hq3 : q ∈ move_positions (env.dist (pos v)) tolerance
              ((INITIALISATION_DISTANCE : α), []) (env.candidates (pos v)) := by
            have h3' : f.move_trace = move_positions (env.dist (pos v))
                tolerance ((INITIALISATION_DISTANCE : α), [])
                (env.candidates (pos v)) := by
              rw [h3]
              simp [initState]
            rw [← h3']
            exact hq
          exact move_positions_length (env.dist (pos v)) tolerance htol
            (env.candidates (pos v)) (INITIALISATION_DISTANCE : α) []
            (Or.inl ⟨rfl, rfl⟩) (fun c hc => hcand (pos v) c hc) q hq3
        · exact hmem w q hq

/-- **C10**: provided `tolerance ≤ 2³²−1` (the sentinel) and every candidate
position has three components (the `pointPosition` contract), a run of
`snap_to_closest_vertex` never hits the `IndexError` branch (the result is
`some`), and whenever the move statement executes, its target — the current
`closest_position` — is a full 3-component candidate position, never the
initial empty list, so the indexing `closest_position[0]`, `[1]`, `[2]` is in
bounds. -/
theorem claim_C10 {ι : Type} [DecidableEq ι] (env : SnapEnv α ι)
    (vertices : List ι) (tolerance : α)
    (htol : tolerance ≤ (INITIALISATION_DISTANCE : α))
    (hcand : ∀ p c, c ∈ env.candidates p → c.length = 3) :
    (snap_to_closest_vertex env vertices tolerance).isSome = true ∧
    ∀ r, snap_to_closest_vertex env vertices tolerance = some r →
      ∀ v q, Event.move v q ∈ r.2 → q.length = 3 ∧ q ≠ [] := by
  obtain ⟨r, hr, hmem⟩ :=
    snap_loop_safe env tolerance htol hcand vertices env.pos0 0
  obtain ⟨pos1, tr⟩ := r
  constructor
  · simp [snap_to_closest_vertex, hr]
  · intro r1 hr1 v q hq
    simp only [snap_to_closest_vertex, hr] at hr1
    injection hr1 with hr1
    subst hr1
    simp at hq
    have h3 : q.length = 3 := hmem v q hq
    refine ⟨h3, ?_⟩
    intro hnil
    rw [hnil] at h3
    simp at h3

/-- Witness for C10: a concrete one-vertex run with tolerance 1 completes and
its single move targets the full 3-component candidate position. -/
theorem claim_C10_witness :
    ((1 : ℤ) ≤ (INITIALISATION_DISTANCE : ℤ) ∧
     (∀ p c, c ∈ envOneCand.candidates p → c.length = 3)) ∧
    ((snap_to_closest_vertex envOneCand [0] (1 : ℤ)).isSome = true ∧
     ∀ r, snap_to_closest_vertex envOneCand [0] (1 : ℤ) = some r →
       ∀ v q, Event.move v q ∈ r.2 → q.length = 3 ∧ q ≠ []) :=
  ⟨⟨by decide, fun p c hc => by
      simp [envOneCand] at hc
      subst hc
      rfl⟩,
    claim_C10 envOneCand [0] 1 (by decide) (fun p c hc => by
      simp [envOneCand] at hc
      subst hc
      rfl)⟩

end SnapVerts
